import Mathlib

/-!
Verification development for the NNQST wavefunction core
(`src/wavefunction.hpp`, class `qst::Wavefunction`).

The `Wavefunction` composes two energy-based models (`Rbm rbmAm_`,
`Rbm rbmPh_`).  The `Rbm` class itself is an external collaborator (its
internals are not part of the file under study), so it is embedded as a
record holding its parameter vector together with the behaviour functions
the wavefunction consumes (`prob`, `VisEnergyGrad`, `InitRandomPars`),
exactly the interface the C++ code calls.

Real (`double`) values are modelled by `ℝ`, `std::complex<double>` by `ℂ`,
`Eigen::VectorXd` / visible configurations by `List`s, and the
`std::map<std::string,Eigen::MatrixXcd>` of unitaries by an association
list whose `operator[]` semantics (default-insert on a missing key) is
modelled explicitly by `mapBracket`.
-/

namespace qst

/-- A 2×2 complex matrix indexed by `(pre-rotation value, post-rotation value)`,
modelled as a total function on the index pair. -/
abbrev UMat : Type := ℕ → ℕ → ℂ

/-- The value produced by indexing a default-constructed `Eigen::MatrixXcd`
(a 0×0 matrix, as inserted by `std::map::operator[]` on a missing key).
Indexing such a matrix is out of range in C++; the model returns `0`. -/
noncomputable def defaultUMat : UMat := fun _ _ => 0

/-- The `std::map<std::string,Eigen::MatrixXcd>` of unitaries, as an
association list. -/
abbrev UMap : Type := List (String × UMat)

/-- Model of `std::map::operator[]`: returns the entry for the key if present;
otherwise inserts a default-constructed value and returns it.  The result
pairs the looked-up matrix with the (possibly extended) map. -/
noncomputable def mapBracket (m : UMap) (k : String) : UMat × UMap :=
  match List.lookup k m with
  | some A => (A, m)
  | none   => (defaultUMat, m ++ [(k, defaultUMat)])

/-- The external `Rbm` collaborator: its mutable parameter vector plus the
behaviour functions of the interface the wavefunction uses.  `probF`,
`gradF` and `initRandomParsF` are the (deterministic) functions computed by
`prob`, `VisEnergyGrad` and `InitRandomPars` for a given parameter vector. -/
structure Rbm where
  nvisible : ℕ
  pars : List ℝ
  probF : List ℝ → List ℕ → ℝ
  gradF : List ℝ → List ℕ → List ℝ
  initRandomParsF : Int → ℝ → List ℝ

/-- Model of `Rbm::Npar()`: the parameter count. -/
def Rbm.Npar (r : Rbm) : ℕ := r.pars.length

/-- Model of `Rbm::prob(v)`. -/
def Rbm.prob (r : Rbm) (v : List ℕ) : ℝ := r.probF r.pars v

/-- Model of `Rbm::VisEnergyGrad(v)`. -/
def Rbm.VisEnergyGrad (r : Rbm) (v : List ℕ) : List ℝ := r.gradF r.pars v

/-- Model of `Rbm::GetParameters()`. -/
def Rbm.GetParameters (r : Rbm) : List ℝ := r.pars

/-- Model of `Rbm::SetParameters(pars)`. -/
def Rbm.SetParameters (r : Rbm) (p : List ℝ) : Rbm := { r with pars := p }

/-- Model of `Rbm::InitRandomPars(seed,sigma)`: reinitializes the parameters from the
seeded distribution. -/
def Rbm.InitRandomPars (r : Rbm) (seed : Int) (sigma : ℝ) : Rbm :=
  { r with pars := r.initRandomParsF seed sigma }

/-- Model of `qst::Wavefunction`: one amplitude model and one phase model.
(`npar_` and `N_` are computed from the models, as in the constructor;
the random generator `rgen_` is passed explicitly to `sampleLayer`.) -/
structure Wavefunction where
  rbmAm : Rbm
  rbmPh : Rbm

/-- Model of `N_ = rbmAm_.Nvisible()`. -/
def Wavefunction.N (w : Wavefunction) : ℕ := w.rbmAm.nvisible

/-- Model of `npar_ = rbmAm_.Npar() + rbmPh_.Npar()`. -/
def Wavefunction.npar (w : Wavefunction) : ℕ := w.rbmAm.Npar + w.rbmPh.Npar

/-- Model of `amplitude(v) = sqrt(rbmAm_.prob(v))`. -/
noncomputable def Wavefunction.amplitude (w : Wavefunction) (v : List ℕ) : ℝ :=
  Real.sqrt (w.rbmAm.prob v)

/-- Model of `phase(v) = log(rbmPh_.prob(v))`. -/
noncomputable def Wavefunction.phase (w : Wavefunction) (v : List ℕ) : ℝ :=
  Real.log (w.rbmPh.prob v)

/-- Model of `psi(v) = amplitude(v) * exp(0.5*I_*phase(v))`. -/
noncomputable def Wavefunction.psi (w : Wavefunction) (v : List ℕ) : ℂ :=
  (w.amplitude v : ℂ) * Complex.exp (0.5 * Complex.I * (w.phase v : ℂ))

/-- Model of `Grad(v)`: the concatenation `rbmAm_.VisEnergyGrad(v), rbmPh_.VisEnergyGrad(v)`. -/
def Wavefunction.Grad (w : Wavefunction) (v : List ℕ) : List ℝ :=
  w.rbmAm.VisEnergyGrad v ++ w.rbmPh.VisEnergyGrad v

/-- Model of `GetParameters()`: amplitude parameters followed by phase parameters. -/
def Wavefunction.GetParameters (w : Wavefunction) : List ℝ :=
  w.rbmAm.GetParameters ++ w.rbmPh.GetParameters

/-- Model of `SetParameters(pars)`: `parsAm(i) = pars(i)` and
`parsPh(i) = pars(i + npar_/2)` for `0 ≤ i < npar_/2`, then each half is
assigned to its model. -/
def Wavefunction.SetParameters (w : Wavefunction) (pars : List ℝ) : Wavefunction :=
  { rbmAm := w.rbmAm.SetParameters
      ((List.range (w.npar / 2)).map fun i => pars.getD i 0)
    rbmPh := w.rbmPh.SetParameters
      ((List.range (w.npar / 2)).map fun i => pars.getD (i + w.npar / 2) 0) }

/-- Model of `InitRandomPars(seed,sigma)`: forwards the same `(seed,sigma)` pair to
both models. -/
def Wavefunction.InitRandomPars (w : Wavefunction) (seed : Int) (sigma : ℝ) :
    Wavefunction :=
  { rbmAm := w.rbmAm.InitRandomPars seed sigma
    rbmPh := w.rbmPh.InitRandomPars seed sigma }

/-- Bit `k` of the loop index as read through `std::bitset<16> bit = i`:
`bit[counter]`.  The constructor keeps only the low 16 bits, and positions
`k ≥ 16` are outside the bitset (formally out of range in C++; libstdc++
reads the untouched high bits of the sanitized word, i.e. `0`), so the
model yields `0` there. -/
def bitAt (i k : ℕ) : ℕ := if k < 16 then i / 2 ^ k % 2 else 0

/-- The inner `v` construction of `rotatedGrad`: `v = state`, then for
`j = 0..N-1` in order, if `basis[j] != "Z"` then `v(j) = bit[counter]`
with `counter` incremented.  Parametrized by the bit-reading function so
the same builder states the claim-level completion (true bits of the
index) and the code-level one (`bitAt`). -/
def buildVWith (bitf : ℕ → ℕ → ℕ) :
    List String → List ℕ → ℕ → ℕ → List ℕ
  | b :: bs, s :: ss, i, c =>
      if b ≠ "Z" then bitf i c :: buildVWith bitf bs ss i (c + 1)
      else s :: buildVWith bitf bs ss i c
  | _, ss, _, _ => ss

/-- The inner product loop of `rotatedGrad`:
`for(ii=0; ii<t; ii++) U = U * Unitaries[basis[basisIndex[ii]]](int(state(j)), int(v(j)))`
with `j = basisIndex[ii]`.  The map is threaded because `operator[]` may
mutate it. -/
noncomputable def uLoop (basis : List String) (state v : List ℕ) :
    List ℕ → ℂ → UMap → ℂ × UMap
  | [], U, m => (U, m)
  | j :: rest, U, m =>
      let p := mapBracket m (basis.getD j "Z")
      uLoop basis state v rest (U * p.1 (state.getD j 0) (v.getD j 0)) p.2

/-- One iteration of the outer loop of `rotatedGrad` (loop index `i`):
build `v`, accumulate `U`, then `num += U*Grad(v)*psi(v)` and
`den += U*psi(v)`. -/
noncomputable def Wavefunction.rotStep (w : Wavefunction) (basis : List String)
    (state : List ℕ) (basisIndex : List ℕ)
    (acc : List ℂ × ℂ × UMap) (i : ℕ) : List ℂ × ℂ × UMap :=
  let v := buildVWith bitAt basis state i 0
  let p := uLoop basis state v basisIndex 1 acc.2.2
  (List.zipWith (· + ·) acc.1
      ((w.Grad v).map fun g : ℝ => p.1 * (g : ℂ) * w.psi v),
   acc.2.1 + p.1 * w.psi v, p.2)

/-- The sites where the rotation is non-trivial:
`for(j=0;j<N_;j++) if (basis[j]!="Z") basisIndex.push_back(j)`. -/
def rotSites (n : ℕ) (basis : List String) : List ℕ :=
  (List.range n).filter fun j => basis.getD j "Z" ≠ "Z"

/-- The accumulation phase of `rotatedGrad`: `num` starts at zero (length
`npar_`), `den` at `0`, and the loop runs over `0 ≤ i < 1<<t`. -/
noncomputable def Wavefunction.rotAccum (w : Wavefunction) (basis : List String)
    (state : List ℕ) (Unitaries : UMap) : List ℂ × ℂ × UMap :=
  let basisIndex := rotSites w.N basis
  (List.range (2 ^ basisIndex.length)).foldl
    (w.rotStep basis state basisIndex)
    (List.replicate w.npar 0, 0, Unitaries)

/-- Model of `rotatedGrad(basis, state, Unitaries, gradR)`: after the accumulation,
`gradR = num/den` (elementwise division of the numerator vector by the
scalar denominator).  The function returns the written `gradR` together
with the final state of the `Unitaries` map (passed by reference in C++). -/
noncomputable def Wavefunction.rotatedGrad (w : Wavefunction) (basis : List String)
    (state : List ℕ) (Unitaries : UMap) : List ℂ × UMap :=
  let r := w.rotAccum basis state Unitaries
  (r.1.map (· / r.2.1), r.2.2)

/-- The shared `std::mt19937 rgen_` seeded at construction, abstracted as
the stream of uniform draws in `[0,1)` that
`std::uniform_real_distribution<double>(0,1)` produces from it, plus the
current position in that stream. -/
structure Rng where
  stream : ℕ → ℝ
  pos : ℕ

/-- The inner column loop of `SampleLayer` for one row:
`hv(s,i) = distribution(rgen_) < probs(s,i)`, one fresh draw per entry. -/
noncomputable def sampleRow : List ℝ → List ℝ → Rng → List ℝ × Rng
  | _ :: hs, ps, r =>
      let b : ℝ := if r.stream r.pos < ps.headD 0 then 1 else 0
      let q := sampleRow hs ps.tail { r with pos := r.pos + 1 }
      (b :: q.1, q.2)
  | [], _, r => ([], r)

/-- Model of `SampleLayer(hv, probs)`: row-major loop over the entries of `hv`,
writing the Bernoulli outcome of a fresh uniform draw against the matching
entry of `probs`.  Returns the overwritten matrix and the advanced
generator. -/
noncomputable def sampleLayer : List (List ℝ) → List (List ℝ) → Rng →
    List (List ℝ) × Rng
  | row :: rows, probs, r =>
      let q := sampleRow row (probs.headD []) r
      let q2 := sampleLayer rows probs.tail q.2
      (q.1 :: q2.1, q2.2)
  | [], _, r => ([], r)

/-- Model of `ln1pexp(x)`: `x` if `x > 30`, else `log1p(exp(x))`. -/
noncomputable def ln1pexp (x : ℝ) : ℝ :=
  if x > 30 then x else Real.log (1 + Real.exp x)

/-- The vector overload of `ln1pexp`: `y(i) = ln1pexp(x(i))` for each `i`. -/
noncomputable def ln1pexpVec : List ℝ → List ℝ
  | [] => []
  | x :: xs => ln1pexp x :: ln1pexpVec xs

/-!
Claim-level description of the rotated-basis gradient estimator, taken
from the specification text: enumerate all `2^t` binary completions of the
`t` non-`"Z"` sites (each completion read from the bits of the loop
index, non-rotated sites fixed at `state[j]`), accumulate
`numerator += U(y)*Grad(v_y)*psi(v_y)` and `denominator += U(y)*psi(v_y)`
with `U(y)` the product, in site order, of
`UnitaryTable[label](state[site], v_y[site])` over the rotated sites, and
return `numerator / denominator`.  These definitions follow the claim's
words (true bits of the index, pure table lookups); they are to be
compared with the source-level `rotatedGrad` above.
-/

/-- Bit `k` of the completion index `y`, as the claim reads it (no width
restriction). -/
def specBit (y k : ℕ) : ℕ := y / 2 ^ k % 2

/-- The ordered list of the claim's rotated (non-`"Z"`) sites of a basis
descriptor of length `N`. -/
def claimSites (basis : List String) : List ℕ :=
  rotSites basis.length basis

/-- The claim's completion `v_y`: equal to `state` except that the rotated
sites take the bits of `y` in order. -/
def claimV (basis : List String) (state : List ℕ) (y : ℕ) : List ℕ :=
  buildVWith specBit basis state y 0

/-- The claim's rotation amplitude `U(y)`: the product, over the rotated
sites in site order, of `UnitaryTable[label](state[site], v_y[site])`. -/
noncomputable def claimU (tbl : UMap) (basis : List String)
    (state v : List ℕ) : ℂ :=
  (claimSites basis).foldl
    (fun U j =>
      U * ((List.lookup (basis.getD j "Z") tbl).getD defaultUMat)
        (state.getD j 0) (v.getD j 0)) 1

/-- The claim's numerator: the accumulated `U(y)*Grad(v_y)*psi(v_y)` over
all `2^t` completions. -/
noncomputable def claimNum (w : Wavefunction) (basis : List String)
    (state : List ℕ) (tbl : UMap) : List ℂ :=
  (List.range (2 ^ (claimSites basis).length)).foldl
    (fun n y =>
      List.zipWith (· + ·) n
        ((w.Grad (claimV basis state y)).map fun g : ℝ =>
          claimU tbl basis state (claimV basis state y) * (g : ℂ) *
            w.psi (claimV basis state y)))
    (List.replicate w.npar 0)

/-- The claim's denominator: the accumulated `U(y)*psi(v_y)` over all
`2^t` completions. -/
noncomputable def claimDen (w : Wavefunction) (basis : List String)
    (state : List ℕ) (tbl : UMap) : ℂ :=
  (List.range (2 ^ (claimSites basis).length)).foldl
    (fun d y =>
      d + claimU tbl basis state (claimV basis state y) *
        w.psi (claimV basis state y)) 0

/-- The claim's result: `gradR = numerator / denominator`. -/
noncomputable def claimGradR (w : Wavefunction) (basis : List String)
    (state : List ℕ) (tbl : UMap) : List ℂ :=
  (claimNum w basis state tbl).map (· / claimDen w basis state tbl)

/-- A concrete one-site model instance used to witness the theorems:
constant unit probability, constant unit gradient. -/
noncomputable def rbmEx : Rbm :=
  { nvisible := 1
    pars := [0]
    probF := fun _ _ => 1
    gradF := fun _ _ => [1]
    initRandomParsF := fun s sg => [sg + (s : ℝ)] }

/-- A concrete wavefunction built from two copies of `rbmEx`. -/
noncomputable def wEx : Wavefunction := { rbmAm := rbmEx, rbmPh := rbmEx }

/-! ### Auxiliary list lemmas -/

lemma map_range_getD {α : Type} (l : List α) (d : α) :
    (List.range l.length).map (fun i => l.getD i d) = l := by
  induction l with
  | nil => simp
  | cons a l ih =>
    rw [List.length_cons, List.range_succ_eq_map, List.map_cons, List.map_map]
    have hc : ((fun i => (a :: l).getD i d) ∘ Nat.succ) = fun i => l.getD i d := by
      funext i; simp
    rw [List.getD_cons_zero, hc, ih]

lemma getD_append_left {α : Type} (l₁ l₂ : List α) (i : ℕ) (d : α)
    (h : i < l₁.length) : (l₁ ++ l₂).getD i d = l₁.getD i d := by
  simp [List.getD_eq_getElem?_getD, List.getElem?_append_left h]

lemma getD_append_right {α : Type} (l₁ l₂ : List α) (i : ℕ) (d : α) :
    (l₁ ++ l₂).getD (i + l₁.length) d = l₂.getD i d := by
  simp [List.getD_eq_getElem?_getD,
    List.getElem?_append_right (Nat.le_add_left l₁.length i)]

lemma getD_take {α : Type} (l : List α) (n i : ℕ) (d : α) (h : i < n) :
    (l.take n).getD i d = l.getD i d := by
  simp [List.getD_eq_getElem?_getD, List.getElem?_take_of_lt h]

lemma getD_drop {α : Type} (l : List α) (n i : ℕ) (d : α) :
    (l.drop n).getD i d = l.getD (n + i) d := by
  simp [List.getD_eq_getElem?_getD, List.getElem?_drop]

lemma map_range_getD' {α : Type} (l : List α) (d : α) (n : ℕ)
    (h : l.length = n) :
    (List.range n).map (fun i => l.getD i d) = l := by
  subst h
  exact map_range_getD l d

lemma zipWith_add_replicate_zero (xs : List ℂ) (n : ℕ) (h : xs.length = n) :
    List.zipWith (· + ·) (List.replicate n (0 : ℂ)) xs = xs := by
  induction xs generalizing n with
  | nil => simp
  | cons a l ih =>
    cases n with
    | zero => simp at h
    | succ n =>
      rw [List.replicate_succ, List.zipWith_cons_cons, zero_add,
        ih n (by simpa using h)]

/-- Setting an `Rbm`'s parameters to their current value is the identity. -/
lemma Rbm.setParameters_self (r : Rbm) : r.SetParameters r.pars = r := rfl

/-- Under the equal-parameter-count invariant, `SetParameters(GetParameters())`
restores the wavefunction exactly. -/
lemma set_get_eq (w : Wavefunction) (h : w.rbmAm.Npar = w.rbmPh.Npar) :
    w.SetParameters w.GetParameters = w := by
  obtain ⟨rA, rP⟩ := w
  simp only [Rbm.Npar] at h
  unfold Wavefunction.SetParameters
  simp only [Wavefunction.GetParameters, Wavefunction.npar, Rbm.Npar,
    Rbm.GetParameters]
  have hm : (rA.pars.length + rP.pars.length) / 2 = rA.pars.length := by omega
  rw [hm]
  have hA : (List.range rA.pars.length).map
      (fun i => (rA.pars ++ rP.pars).getD i 0) = rA.pars := by
    have hcong : ∀ i ∈ List.range rA.pars.length,
        (rA.pars ++ rP.pars).getD i 0 = rA.pars.getD i 0 := by
      intro i hi
      exact getD_append_left _ _ _ _ (List.mem_range.mp hi)
    rw [List.map_congr_left hcong, map_range_getD]
  have hP : (List.range rA.pars.length).map
      (fun i => (rA.pars ++ rP.pars).getD (i + rA.pars.length) 0) = rP.pars := by
    have hcong : ∀ i ∈ List.range rA.pars.length,
        (rA.pars ++ rP.pars).getD (i + rA.pars.length) 0 = rP.pars.getD i 0 := by
      intro i _
      exact getD_append_right _ _ _ _
    rw [List.map_congr_left hcong]
    exact map_range_getD' rP.pars 0 rA.pars.length h.symm
  rw [hA, hP, Rbm.setParameters_self, Rbm.setParameters_self]

/-- The value of the inner `U` product when every accessed key is present:
a pure fold of table lookups over the rotated-site list. -/
noncomputable def uProd (tbl : UMap) (basis : List String) (state v : List ℕ)
    (js : List ℕ) : ℂ :=
  js.foldl
    (fun a j =>
      a * ((List.lookup (basis.getD j "Z") tbl).getD defaultUMat)
        (state.getD j 0) (v.getD j 0)) 1

lemma claimU_eq_uProd (tbl : UMap) (basis : List String) (state v : List ℕ) :
    claimU tbl basis state v = uProd tbl basis state v (claimSites basis) := rfl

lemma mapBracket_found (m : UMap) (k : String) (A : UMat)
    (h : List.lookup k m = some A) : mapBracket m k = (A, m) := by
  unfold mapBracket
  rw [h]

lemma uLoop_covered (basis : List String) (state v : List ℕ) :
    ∀ (js : List ℕ) (U : ℂ) (m : UMap),
      (∀ j ∈ js, (List.lookup (basis.getD j "Z") m).isSome) →
      uLoop basis state v js U m =
        (js.foldl
          (fun a j =>
            a * ((List.lookup (basis.getD j "Z") m).getD defaultUMat)
              (state.getD j 0) (v.getD j 0)) U, m) := by
  intro js
  induction js with
  | nil =>
    intro U m _
    rfl
  | cons j rest ih =>
    intro U m hcov
    obtain ⟨A, hA⟩ := Option.isSome_iff_exists.mp (hcov j (by simp))
    simp only [uLoop, mapBracket_found m _ A hA, List.foldl_cons, hA,
      Option.getD_some]
    exact ih (U * A (state.getD j 0) (v.getD j 0)) m
      fun x hx => hcov x (by simp [hx])

lemma rotStep_covered (w : Wavefunction) (basis : List String)
    (state : List ℕ) (bIdx : List ℕ) (n : List ℂ) (d : ℂ) (m : UMap) (i : ℕ)
    (hcov : ∀ j ∈ bIdx, (List.lookup (basis.getD j "Z") m).isSome) :
    w.rotStep basis state bIdx (n, d, m) i =
      (List.zipWith (· + ·) n
        ((w.Grad (buildVWith bitAt basis state i 0)).map fun g : ℝ =>
          uProd m basis state (buildVWith bitAt basis state i 0) bIdx * (g : ℂ) *
            w.psi (buildVWith bitAt basis state i 0)),
       d + uProd m basis state (buildVWith bitAt basis state i 0) bIdx *
         w.psi (buildVWith bitAt basis state i 0), m) := by
  unfold Wavefunction.rotStep
  simp only []
  rw [uLoop_covered basis state (buildVWith bitAt basis state i 0) bIdx 1 m hcov]
  rfl

lemma rotAccum_fold (w : Wavefunction) (basis : List String) (state : List ℕ)
    (bIdx : List ℕ) (m : UMap)
    (hcov : ∀ j ∈ bIdx, (List.lookup (basis.getD j "Z") m).isSome) :
    ∀ (l : List ℕ) (n : List ℂ) (d : ℂ),
      l.foldl (w.rotStep basis state bIdx) (n, d, m) =
        (l.foldl
          (fun acc i => List.zipWith (· + ·) acc
            ((w.Grad (buildVWith bitAt basis state i 0)).map fun g : ℝ =>
              uProd m basis state (buildVWith bitAt basis state i 0) bIdx *
                (g : ℂ) * w.psi (buildVWith bitAt basis state i 0))) n,
         l.foldl
          (fun acc i => acc +
            uProd m basis state (buildVWith bitAt basis state i 0) bIdx *
              w.psi (buildVWith bitAt basis state i 0)) d,
         m) := by
  intro l
  induction l with
  | nil =>
    intro n d
    rfl
  | cons i rest ih =>
    intro n d
    rw [List.foldl_cons, rotStep_covered w basis state bIdx n d m i hcov,
      ih, List.foldl_cons, List.foldl_cons]

lemma foldl_congr_fun {α β : Type} (l : List β) (f g : α → β → α)
    (h : ∀ acc b, f acc b = g acc b) :
    ∀ a : α, l.foldl f a = l.foldl g a := by
  induction l with
  | nil => intro a; rfl
  | cons b rest ih =>
    intro a
    rw [List.foldl_cons, List.foldl_cons, h, ih]

lemma bitAt_eq_specBit (i k : ℕ) (h : k < 16) : bitAt i k = specBit i k := by
  unfold bitAt specBit
  rw [if_pos h]

lemma buildVWith_bit_agree : ∀ (bs : List String) (ss : List ℕ) (i c : ℕ),
    c + (bs.filter (fun b => b ≠ "Z")).length ≤ 16 →
    buildVWith bitAt bs ss i c = buildVWith specBit bs ss i c := by
  intro bs
  induction bs with
  | nil =>
    intro ss i c _
    cases ss <;> rfl
  | cons b bs ih =>
    intro ss i c hc
    cases ss with
    | nil => rfl
    | cons s ss =>
      by_cases hb : b = "Z"
      · simp only [buildVWith, hb, ne_eq, not_true_eq_false, if_false]
        rw [ih ss i c (by simpa [hb] using hc)]
      · have hlen : (List.filter (fun b => b ≠ "Z") (b :: bs)).length =
            (List.filter (fun b => b ≠ "Z") bs).length + 1 := by
          simp [List.filter_cons, hb]
        simp only [buildVWith, hb, ne_eq, not_false_eq_true, if_true]
        rw [bitAt_eq_specBit i c (by omega),
          ih ss i (c + 1) (by omega)]

lemma rotSites_length_eq_filter (bs : List String) :
    (rotSites bs.length bs).length = (bs.filter (fun b => b ≠ "Z")).length := by
  conv_rhs => rw [← map_range_getD bs "Z"]
  rw [List.filter_map, List.length_map]
  rfl

lemma foldl_mul_one_of (F : ℕ → ℂ) :
    ∀ (js : List ℕ) (a : ℂ), (∀ j ∈ js, F j = 1) →
      js.foldl (fun a j => a * F j) a = a := by
  intro js
  induction js with
  | nil =>
    intro a _
    rfl
  | cons j rest ih =>
    intro a h
    rw [List.foldl_cons, h j (by simp), mul_one]
    exact ih a fun x hx => h x (by simp [hx])

lemma uProd_ones (tbl : UMap) (basis : List String) (state v : List ℕ)
    (js : List ℕ)
    (h : ∀ j ∈ js, ((List.lookup (basis.getD j "Z") tbl).getD defaultUMat)
      (state.getD j 0) (v.getD j 0) = 1) :
    uProd tbl basis state v js = 1 := by
  unfold uProd
  exact foldl_mul_one_of _ js 1 h

lemma foldl_add_sum (f : ℕ → ℂ) :
    ∀ (l : List ℕ) (a : ℂ),
      l.foldl (fun acc i => acc + f i) a = a + (l.map f).sum := by
  intro l
  induction l with
  | nil =>
    intro a
    simp
  | cons i rest ih =>
    intro a
    rw [List.foldl_cons, ih, List.map_cons, List.sum_cons, add_assoc]

lemma foldl_zip_singleton (f : ℕ → ℂ) :
    ∀ (l : List ℕ) (a : ℂ),
      l.foldl (fun acc i => List.zipWith (· + ·) acc [f i]) [a] =
        [a + (l.map f).sum] := by
  intro l
  induction l with
  | nil =>
    intro a
    simp
  | cons i rest ih =>
    intro a
    rw [List.foldl_cons, show List.zipWith (· + ·) [a] [f i] = [a + f i] from
      rfl, ih, List.map_cons, List.sum_cons, add_assoc]

lemma buildV_replicateX (bitf : ℕ → ℕ → ℕ) :
    ∀ (n i c : ℕ),
      buildVWith bitf (List.replicate n "X") (List.replicate n 0) i c =
        (List.range n).map (fun k => bitf i (c + k)) := by
  intro n
  induction n with
  | zero =>
    intro i c
    rfl
  | succ n ih =>
    intro i c
    rw [List.replicate_succ, List.replicate_succ]
    show (if ("X" : String) ≠ "Z" then
        bitf i c :: buildVWith bitf (List.replicate n "X")
          (List.replicate n 0) i (c + 1)
      else 0 :: buildVWith bitf (List.replicate n "X")
          (List.replicate n 0) i c) = _
    rw [if_pos (by decide), ih i (c + 1), List.range_succ_eq_map,
      List.map_cons, List.map_map]
    have hfun : ((fun k => bitf i (c + k)) ∘ Nat.succ) =
        fun k => bitf i (c + 1 + k) := by
      funext k
      simp only [Function.comp_apply]
      congr 1
      omega
    rw [hfun]
    simp

lemma getD_map_range (f : ℕ → ℕ) {n k : ℕ} (h : k < n) :
    ((List.range n).map f).getD k 0 = f k := by
  rw [List.getD_eq_getElem?_getD, List.getElem?_map, List.getElem?_range h]
  rfl

/-- C1 (amended): for every basis descriptor of length `N`, measured
outcome `state`, and unitary table covering all non-identity labels,
provided the rotated-site count `t` does not exceed the 16-bit width of
the enumeration bitset, `rotatedGrad` enumerates exactly the `2^t`
completions of the `t` non-`"Z"` sites (each completion read from the
bits of the loop index, non-rotated sites fixed at `state[j]`),
accumulates `numerator += U(y)*Grad(v_y)*psi(v_y)` and
`denominator += U(y)*psi(v_y)` with `U(y)` the product of unitary matrix
elements over the rotated sites in site order, writes
`gradR = numerator/denominator`, and leaves the caller's table unchanged. -/
theorem c1_rotatedGrad_formula (w : Wavefunction) (basis : List String)
    (state : List ℕ) (Unitaries : UMap)
    (hbl : basis.length = w.N)
    (hcov : ∀ j ∈ rotSites w.N basis,
      (List.lookup (basis.getD j "Z") Unitaries).isSome)
    (ht : (rotSites w.N basis).length ≤ 16) :
    w.rotatedGrad basis state Unitaries =
      (claimGradR w basis state Unitaries, Unitaries) := by
  have hS : rotSites w.N basis = claimSites basis := by
    unfold claimSites
    rw [hbl]
  rw [hS] at hcov ht
  have hfil : (basis.filter (fun b => b ≠ "Z")).length ≤ 16 := by
    rw [← rotSites_length_eq_filter basis]
    exact ht
  have hv : ∀ i, buildVWith bitAt basis state i 0 = claimV basis state i := by
    intro i
    exact buildVWith_bit_agree basis state i 0 (by omega)
  have haccum : w.rotAccum basis state Unitaries =
      (claimNum w basis state Unitaries, claimDen w basis state Unitaries,
        Unitaries) := by
    unfold Wavefunction.rotAccum
    simp only []
    rw [hS, rotAccum_fold w basis state (claimSites basis) Unitaries hcov]
    refine congrArg₂ Prod.mk ?_ (congrArg₂ Prod.mk ?_ rfl)
    · unfold claimNum
      exact foldl_congr_fun _ _ _ (fun acc i => by rw [hv i, claimU_eq_uProd]) _
    · unfold claimDen
      exact foldl_congr_fun _ _ _ (fun acc i => by rw [hv i, claimU_eq_uProd]) _
  show ((w.rotAccum basis state Unitaries).1.map
      (· / (w.rotAccum basis state Unitaries).2.1),
    (w.rotAccum basis state Unitaries).2.2) = _
  rw [haccum]
  rfl

/-- Witness for C1 (amended) at the concrete instance `wEx`, basis
`["X"]`, `state = [0]`, an all-ones unitary entry for `"X"`. -/
theorem c1_witness :
    (["X"] : List String).length = wEx.N ∧
    (∀ j ∈ rotSites wEx.N ["X"],
      (List.lookup ((["X"] : List String).getD j "Z")
        [("X", (fun _ _ => 1 : UMat))]).isSome) ∧
    (rotSites wEx.N ["X"]).length ≤ 16 ∧
    wEx.rotatedGrad ["X"] [0] [("X", (fun _ _ => 1 : UMat))] =
      (claimGradR wEx ["X"] [0] [("X", (fun _ _ => 1 : UMat))],
       [("X", (fun _ _ => 1 : UMat))]) := by
  have h1 : (["X"] : List String).length = wEx.N := rfl
  have h2 : ∀ j ∈ rotSites wEx.N ["X"],
      (List.lookup ((["X"] : List String).getD j "Z")
        [("X", (fun _ _ => 1 : UMat))]).isSome := by
    intro j hj
    have : j = 0 := by
      have : rotSites wEx.N ["X"] = [0] := by decide
      rw [this] at hj
      simpa using hj
    subst this
    rfl
  have h3 : (rotSites wEx.N ["X"]).length ≤ 16 := by decide
  exact ⟨h1, h2, h3, c1_rotatedGrad_formula wEx ["X"] [0] _ h1 h2 h3⟩

/-- A 17-site instance exercising the enumeration-capacity boundary: the
amplitude model distinguishes configurations by the value of site 16, the
phase model is trivial. -/
noncomputable def rbmAm17 : Rbm :=
  { nvisible := 17
    pars := [0]
    probF := fun _ v => if v.getD 16 0 = 1 then 4 else 1
    gradF := fun _ v => [if v.getD 16 0 = 1 then (1 : ℝ) else 0]
    initRandomParsF := fun _ _ => [0] }

/-- Trivial phase model for the 17-site instance (no parameters). -/
noncomputable def rbmPh17 : Rbm :=
  { nvisible := 17
    pars := []
    probF := fun _ _ => 1
    gradF := fun _ _ => []
    initRandomParsF := fun _ _ => [] }

/-- The 17-site wavefunction. -/
noncomputable def w17 : Wavefunction := { rbmAm := rbmAm17, rbmPh := rbmPh17 }

/-- A basis rotating all 17 sites. -/
def basis17 : List String := List.replicate 17 "X"

/-- A measured outcome on 17 sites. -/
def state17 : List ℕ := List.replicate 17 0

/-- An all-ones `2×2` matrix used as the table entry for `"X"`. -/
noncomputable def ones17 : UMat := fun _ _ => 1

/-- A unitary table covering the only non-identity label `"X"`. -/
noncomputable def tbl17 : UMap := [("X", ones17)]

lemma basis17_getD (j : ℕ) (hj : j < 17) : basis17.getD j "Z" = "X" := by
  rw [basis17, List.getD_eq_getElem?_getD, List.getElem?_replicate, if_pos hj]
  rfl

lemma rotSites_w17 : rotSites w17.N basis17 = List.range 17 := by decide

lemma claimSites_basis17 : claimSites basis17 = List.range 17 := by decide

lemma w17_coverage : ∀ j ∈ List.range 17,
    (List.lookup (basis17.getD j "Z") tbl17).isSome := by
  intro j hj
  rw [basis17_getD j (List.mem_range.mp hj)]
  rfl

lemma w17_uProd (v : List ℕ) :
    uProd tbl17 basis17 state17 v (List.range 17) = 1 := by
  apply uProd_ones
  intro j hj
  rw [basis17_getD j (List.mem_range.mp hj)]
  rfl

lemma w17_psi (v : List ℕ) :
    w17.psi v = if v.getD 16 0 = 1 then 2 else 1 := by
  have hsqrt4 : Real.sqrt 4 = 2 := by
    rw [show (4 : ℝ) = 2 ^ 2 by norm_num]
    exact Real.sqrt_sq (by norm_num)
  unfold Wavefunction.psi Wavefunction.amplitude Wavefunction.phase Rbm.prob
    w17 rbmAm17 rbmPh17
  simp only []
  by_cases h : v.getD 16 0 = 1
  · rw [if_pos h, if_pos h, hsqrt4]
    simp
  · rw [if_neg h, if_neg h, Real.sqrt_one]
    simp

lemma w17_grad (v : List ℕ) :
    w17.Grad v = [if v.getD 16 0 = 1 then (1 : ℝ) else 0] := by
  unfold Wavefunction.Grad Rbm.VisEnergyGrad w17 rbmAm17 rbmPh17
  simp

lemma w17_codeV (i : ℕ) :
    (buildVWith bitAt basis17 state17 i 0).getD 16 0 = 0 := by
  rw [basis17, state17, buildV_replicateX bitAt 17 i 0,
    getD_map_range _ (by norm_num)]
  rfl

lemma w17_claimV (y : ℕ) :
    (claimV basis17 state17 y).getD 16 0 = y / 2 ^ 16 % 2 := by
  rw [claimV, basis17, state17, buildV_replicateX specBit 17 y 0,
    getD_map_range _ (by norm_num)]
  rfl

lemma w17_code_accum :
    w17.rotAccum basis17 state17 tbl17 = ([(0 : ℂ)], (2 : ℂ) ^ 17, tbl17) := by
  unfold Wavefunction.rotAccum
  simp only []
  rw [rotSites_w17,
    rotAccum_fold w17 basis17 state17 (List.range 17) tbl17 w17_coverage,
    show w17.npar = 1 from rfl, show List.replicate 1 (0 : ℂ) = [0] from rfl,
    List.length_range]
  have hstepN : ∀ (acc : List ℂ) (i : ℕ),
      List.zipWith (· + ·) acc
        ((w17.Grad (buildVWith bitAt basis17 state17 i 0)).map fun g : ℝ =>
          uProd tbl17 basis17 state17 (buildVWith bitAt basis17 state17 i 0)
              (List.range 17) * (g : ℂ) *
            w17.psi (buildVWith bitAt basis17 state17 i 0)) =
      List.zipWith (· + ·) acc [(0 : ℂ)] := by
    intro acc i
    rw [w17_uProd, w17_grad, w17_psi, w17_codeV]
    norm_num
  have hstepD : ∀ (acc : ℂ) (i : ℕ),
      acc + uProd tbl17 basis17 state17 (buildVWith bitAt basis17 state17 i 0)
          (List.range 17) * w17.psi (buildVWith bitAt basis17 state17 i 0) =
      acc + 1 := by
    intro acc i
    rw [w17_uProd, w17_psi, w17_codeV]
    norm_num
  refine congrArg₂ Prod.mk ?_ (congrArg₂ Prod.mk ?_ rfl)
  · rw [foldl_congr_fun _ _ _ hstepN [0],
      foldl_zip_singleton (fun _ => (0 : ℂ)),
      List.map_const', List.sum_replicate, smul_zero, add_zero]
  · rw [foldl_congr_fun _ _ _ hstepD 0, foldl_add_sum (fun _ => (1 : ℂ)),
      List.map_const', List.sum_replicate, List.length_range,
      nsmul_eq_mul, mul_one, zero_add]
    norm_cast

lemma specBit16_low (y : ℕ) (hy : y < 2 ^ 16) : y / 2 ^ 16 % 2 = 0 := by
  rw [Nat.div_eq_of_lt hy]

lemma specBit16_high (y : ℕ) (hy : y < 2 ^ 16) : (2 ^ 16 + y) / 2 ^ 16 % 2 = 1 := by
  rw [Nat.add_comm, Nat.add_div_right _ (by norm_num), Nat.div_eq_of_lt hy]

lemma w17_claim_den :
    claimDen w17 basis17 state17 tbl17 = 3 * 2 ^ 16 := by
  unfold claimDen
  rw [claimSites_basis17, List.length_range]
  have hstep : ∀ (d : ℂ) (y : ℕ),
      d + claimU tbl17 basis17 state17 (claimV basis17 state17 y) *
        w17.psi (claimV basis17 state17 y) =
      d + (if y / 2 ^ 16 % 2 = 1 then (2 : ℂ) else 1) := by
    intro d y
    rw [claimU_eq_uProd, claimSites_basis17, w17_uProd, w17_psi, w17_claimV,
      one_mul]
  rw [foldl_congr_fun _ _ _ hstep 0,
    foldl_add_sum (fun y => if y / 2 ^ 16 % 2 = 1 then (2 : ℂ) else 1),
    zero_add, show (2 : ℕ) ^ 17 = 2 ^ 16 + 2 ^ 16 from by norm_num,
    List.range_add, List.map_append, List.sum_append, List.map_map]
  have h1 : ((List.range (2 ^ 16)).map
      (fun y => if y / 2 ^ 16 % 2 = 1 then (2 : ℂ) else 1)).sum = 2 ^ 16 := by
    have hc : ∀ y ∈ List.range (2 ^ 16),
        (if y / 2 ^ 16 % 2 = 1 then (2 : ℂ) else 1) = 1 := by
      intro y hy
      rw [specBit16_low y (List.mem_range.mp hy)]
      norm_num
    rw [List.map_congr_left hc, List.map_const', List.sum_replicate,
      List.length_range, nsmul_eq_mul, mul_one]
    norm_cast
  have h2 : ((List.range (2 ^ 16)).map
      ((fun y => if y / 2 ^ 16 % 2 = 1 then (2 : ℂ) else 1) ∘
        (2 ^ 16 + ·))).sum = 2 ^ 16 * 2 := by
    have hc : ∀ y ∈ List.range (2 ^ 16),
        ((fun y => if y / 2 ^ 16 % 2 = 1 then (2 : ℂ) else 1) ∘
          (2 ^ 16 + ·)) y = 2 := by
      intro y hy
      show (if (2 ^ 16 + y) / 2 ^ 16 % 2 = 1 then (2 : ℂ) else 1) = 2
      rw [specBit16_high y (List.mem_range.mp hy)]
      norm_num
    rw [List.map_congr_left hc, List.map_const', List.sum_replicate,
      List.length_range, nsmul_eq_mul]
    norm_cast
  rw [h1, h2]
  norm_num

lemma w17_claim_num :
    claimNum w17 basis17 state17 tbl17 = [(2 : ℂ) ^ 17] := by
  unfold claimNum
  rw [claimSites_basis17, List.length_range,
    show w17.npar = 1 from rfl, show List.replicate 1 (0 : ℂ) = [0] from rfl]
  have hstep : ∀ (acc : List ℂ) (y : ℕ),
      List.zipWith (· + ·) acc
        ((w17.Grad (claimV basis17 state17 y)).map fun g : ℝ =>
          claimU tbl17 basis17 state17 (claimV basis17 state17 y) * (g : ℂ) *
            w17.psi (claimV basis17 state17 y)) =
      List.zipWith (· + ·) acc
        [if y / 2 ^ 16 % 2 = 1 then (2 : ℂ) else 0] := by
    intro acc y
    rw [claimU_eq_uProd, claimSites_basis17, w17_uProd, w17_grad, w17_psi,
      w17_claimV]
    by_cases h : y / 2 ^ 16 % 2 = 1
    · rw [if_pos h, if_pos h, if_pos h]
      norm_num
    · rw [if_neg h, if_neg h, if_neg h]
      norm_num
  rw [foldl_congr_fun _ _ _ hstep [0],
    foldl_zip_singleton (fun y => if y / 2 ^ 16 % 2 = 1 then (2 : ℂ) else 0),
    show (2 : ℕ) ^ 17 = 2 ^ 16 + 2 ^ 16 from by norm_num,
    List.range_add, List.map_append, List.sum_append, List.map_map]
  have h1 : ((List.range (2 ^ 16)).map
      (fun y => if y / 2 ^ 16 % 2 = 1 then (2 : ℂ) else 0)).sum = 0 := by
    have hc : ∀ y ∈ List.range (2 ^ 16),
        (if y / 2 ^ 16 % 2 = 1 then (2 : ℂ) else 0) = 0 := by
      intro y hy
      rw [specBit16_low y (List.mem_range.mp hy)]
      norm_num
    rw [List.map_congr_left hc, List.map_const', List.sum_replicate, smul_zero]
  have h2 : ((List.range (2 ^ 16)).map
      ((fun y => if y / 2 ^ 16 % 2 = 1 then (2 : ℂ) else 0) ∘
        (2 ^ 16 + ·))).sum = 2 ^ 16 * 2 := by
    have hc : ∀ y ∈ List.range (2 ^ 16),
        ((fun y => if y / 2 ^ 16 % 2 = 1 then (2 : ℂ) else 0) ∘
          (2 ^ 16 + ·)) y = 2 := by
      intro y hy
      show (if (2 ^ 16 + y) / 2 ^ 16 % 2 = 1 then (2 : ℂ) else 0) = 2
      rw [specBit16_high y (List.mem_range.mp hy)]
      norm_num
    rw [List.map_congr_left hc, List.map_const', List.sum_replicate,
      List.length_range, nsmul_eq_mul]
    norm_cast
  rw [h1, h2]
  norm_num

lemma w17_claimGradR :
    claimGradR w17 basis17 state17 tbl17 = [(2 : ℂ) ^ 17 / (3 * 2 ^ 16)] := by
  unfold claimGradR
  rw [w17_claim_num, w17_claim_den]
  rfl

lemma rotatedGrad_eq_accum (w : Wavefunction) (basis : List String)
    (state : List ℕ) (Unitaries : UMap) :
    w.rotatedGrad basis state Unitaries =
      ((w.rotAccum basis state Unitaries).1.map
        (· / (w.rotAccum basis state Unitaries).2.1),
       (w.rotAccum basis state Unitaries).2.2) := rfl

lemma w17_codeGradR :
    (w17.rotatedGrad basis17 state17 tbl17).1 = [0] := by
  rw [rotatedGrad_eq_accum, w17_code_accum]
  norm_num

/-- C1 counterexample: at 17 rotated sites the 16-bit enumeration bitset
truncates the completion index, so `rotatedGrad` does not enumerate the
`2^17` completions the claim describes: site 16 never takes the value 1
and the result (here `[0]`) differs from the claimed
`numerator/denominator` formula (here `[2^17 / (3·2^16)]`). -/
theorem c1_counterexample :
    ¬ ((w17.rotatedGrad basis17 state17 tbl17).1 =
      claimGradR w17 basis17 state17 tbl17) := by
  rw [w17_codeGradR, w17_claimGradR]
  intro h
  have h0 : (0 : ℂ) = 2 ^ 17 / (3 * 2 ^ 16) := by
    simpa using h
  have hne : ((2 : ℂ) ^ 17 / (3 * 2 ^ 16)) ≠ 0 :=
    div_ne_zero (by norm_num) (by norm_num)
  exact hne h0.symm

/-- C4: at `t = 17` rotated sites — past the 16-bit capacity of the
enumeration bitset — `rotatedGrad` performs no check and does not report:
it runs the full (silently truncated) loop, accumulating a denominator
over all `2^17` indices, and returns normally with the table unchanged. -/
theorem c4_capacity_overflow_not_detected :
    (w17.rotAccum basis17 state17 tbl17).2.1 = (2 : ℂ) ^ 17 ∧
    (w17.rotatedGrad basis17 state17 tbl17).2 = tbl17 ∧
    (w17.rotatedGrad basis17 state17 tbl17).1 = [0 / (2 : ℂ) ^ 17] := by
  refine ⟨by rw [w17_code_accum], ?_, ?_⟩
  · rw [rotatedGrad_eq_accum, w17_code_accum]
  · rw [rotatedGrad_eq_accum, w17_code_accum]
    rfl

lemma getD_allZ (bs : List String) (h : ∀ b ∈ bs, b = "Z") (j : ℕ) :
    bs.getD j "Z" = "Z" := by
  rw [List.getD_eq_getElem?_getD]
  cases hx : bs[j]? with
  | none => rfl
  | some a =>
    have ha : a ∈ bs := List.getElem?_mem hx
    simp [h a ha]

lemma buildVWith_allZ (bitf : ℕ → ℕ → ℕ) :
    ∀ (bs : List String) (ss : List ℕ) (i c : ℕ),
      (∀ b ∈ bs, b = "Z") → buildVWith bitf bs ss i c = ss := by
  intro bs
  induction bs with
  | nil =>
    intro ss i c _
    cases ss <;> rfl
  | cons b bs ih =>
    intro ss i c h
    cases ss with
    | nil => rfl
    | cons s ss =>
      have hb : b = "Z" := h b (by simp)
      simp only [buildVWith, hb, ne_eq, not_true_eq_false, if_false]
      rw [ih ss i c fun x hx => h x (by simp [hx])]

lemma rotSites_allZ (n : ℕ) (bs : List String) (h : ∀ b ∈ bs, b = "Z") :
    rotSites n bs = [] := by
  unfold rotSites
  rw [List.filter_eq_nil_iff]
  intro j _
  simp only [getD_allZ bs h j]
  simp

/-! ### Claim theorems (marshalling, evaluation, utilities) -/

/-- C5: on an all-`"Z"` basis the rotated-gradient loop degenerates
(`t = 0`, a single iteration with `U = 1`) and, provided
`psi(state) ≠ 0`, `rotatedGrad` returns exactly `Grad(state)` (as a
complex vector); the unitary map is left untouched. -/
theorem c5_allZ_reduces_to_grad (w : Wavefunction) (basis : List String)
    (state : List ℕ) (m : UMap)
    (hz : ∀ b ∈ basis, b = "Z")
    (hpsi : w.psi state ≠ 0)
    (hg : (w.Grad state).length = w.npar) :
    rotSites w.N basis = [] ∧
    (w.rotatedGrad basis state m).1 = (w.Grad state).map (fun g : ℝ => (g : ℂ)) ∧
    (w.rotatedGrad basis state m).2 = m := by
  have hsites : rotSites w.N basis = [] := rotSites_allZ _ _ hz
  have hv : buildVWith bitAt basis state 0 0 = state :=
    buildVWith_allZ bitAt basis state 0 0 hz
  have hstep : w.rotStep basis state [] (List.replicate w.npar 0, 0, m) 0 =
      ((w.Grad state).map fun g : ℝ => (1 : ℂ) * (g : ℂ) * w.psi state,
        0 + 1 * w.psi state, m) := by
    unfold Wavefunction.rotStep
    simp only [uLoop, hv]
    rw [zipWith_add_replicate_zero
      ((w.Grad state).map fun g : ℝ => (1 : ℂ) * (g : ℂ) * w.psi state) w.npar
      (by simpa using hg)]
  have haccum : w.rotAccum basis state m =
      ((w.Grad state).map fun g : ℝ => (1 : ℂ) * (g : ℂ) * w.psi state,
        0 + 1 * w.psi state, m) := by
    unfold Wavefunction.rotAccum
    rw [hsites]
    simp only [List.length_nil, pow_zero,
      show List.range 1 = [0] from by decide, List.foldl_cons, List.foldl_nil]
    exact hstep
  refine ⟨hsites, ?_, ?_⟩
  · unfold Wavefunction.rotatedGrad
    rw [haccum]
    simp only [List.map_map]
    apply List.map_congr_left
    intro g _
    simp only [Function.comp_apply, one_mul, zero_add]
    exact mul_div_cancel_right₀ _ hpsi
  · unfold Wavefunction.rotatedGrad
    rw [haccum]

/-- The single-site Hadamard-like unitary, here indexed as
`H(p,q) = -1/√2` when `p = q = 1` and `1/√2` otherwise. -/
noncomputable def hadamardX : UMat := fun p q =>
  if p = 1 ∧ q = 1 then -((1 / Real.sqrt 2 : ℝ) : ℂ)
  else ((1 / Real.sqrt 2 : ℝ) : ℂ)

/-- A unitary table holding the Hadamard entry for `"X"`. -/
noncomputable def tblH : UMap := [("X", hadamardX)]

lemma wEx_psi (v : List ℕ) : wEx.psi v = 1 := by
  unfold Wavefunction.psi Wavefunction.amplitude Wavefunction.phase Rbm.prob
    wEx rbmEx
  simp

/-- C2: at a measured outcome of zero amplitude (`state = [1]` in the
`X` basis with `psi` constant, so the two completions interfere to zero),
the denominator accumulated by `rotatedGrad` is exactly `0`, yet the
function still computes `gradR` as `numerator / 0` — the division is
unconditional and no error condition is surfaced to the caller (the
return channel carries only the gradient vector and the table). -/
theorem c2_zero_denominator_no_error :
    (wEx.rotAccum ["X"] [1] tblH).2.1 = 0 ∧
    (wEx.rotatedGrad ["X"] [1] tblH).1 =
      (wEx.rotAccum ["X"] [1] tblH).1.map (· / 0) := by
  have key : (wEx.rotAccum ["X"] [1] tblH).2.1 =
      0 + 1 * hadamardX 1 0 * wEx.psi [0] + 1 * hadamardX 1 1 * wEx.psi [1] :=
    rfl
  have hden : (wEx.rotAccum ["X"] [1] tblH).2.1 = 0 := by
    rw [key, wEx_psi, wEx_psi]
    unfold hadamardX
    norm_num
  refine ⟨hden, ?_⟩
  unfold Wavefunction.rotatedGrad
  simp only []
  rw [hden]

/-- C3: calling `rotatedGrad` with a basis label (`"X"`) missing from the
unitary table does not abort: `std::map::operator[]` default-inserts an
entry for the label, mutating the caller's table — the returned table has
gained a default (`0×0`) matrix under `"X"`. -/
theorem c3_missing_entry_mutates_table :
    (wEx.rotatedGrad ["X"] [0] []).2 = [("X", defaultUMat)] ∧
    ([] : UMap) ≠ (wEx.rotatedGrad ["X"] [0] []).2 := by
  have h2 : (wEx.rotatedGrad ["X"] [0] []).2 = [("X", defaultUMat)] := rfl
  refine ⟨h2, ?_⟩
  rw [h2]
  simp

/-- Witness for C5 at the concrete instance `wEx`, all-`"Z"` basis
`["Z"]`, `state = [0]`, empty unitary map. -/
theorem c5_witness :
    (∀ b ∈ ["Z"], b = "Z") ∧ wEx.psi [0] ≠ 0 ∧
    (wEx.Grad [0]).length = wEx.npar ∧
    (rotSites wEx.N ["Z"] = [] ∧
     (wEx.rotatedGrad ["Z"] [0] []).1 =
       (wEx.Grad [0]).map (fun g : ℝ => (g : ℂ)) ∧
     (wEx.rotatedGrad ["Z"] [0] []).2 = []) := by
  have hpsi : wEx.psi [0] ≠ 0 := by
    unfold Wavefunction.psi
    simp [Complex.exp_ne_zero, Wavefunction.amplitude, wEx, rbmEx, Rbm.prob]
  exact ⟨by simp, hpsi, rfl,
    c5_allZ_reduces_to_grad wEx ["Z"] [0] [] (by simp) hpsi rfl⟩

/-- C6: `amplitude(v) = √(AmplitudeModel.prob(v))`,
`phase(v) = ln(PhaseModel.prob(v))`, `psi(v) = amplitude(v)·exp(i·phase(v)/2)`,
and (under the non-negativity contract on `prob`) the modulus of `psi(v)`
equals `amplitude(v)`. -/
theorem c6_psi_modulus (w : Wavefunction) (v : List ℕ)
    (h : 0 ≤ w.rbmAm.prob v) :
    w.amplitude v = Real.sqrt (w.rbmAm.prob v) ∧
    w.phase v = Real.log (w.rbmPh.prob v) ∧
    w.psi v = (w.amplitude v : ℂ) *
      Complex.exp (Complex.I * (w.phase v : ℂ) / 2) ∧
    Complex.abs (w.psi v) = w.amplitude v := by
  refine ⟨rfl, rfl, ?_, ?_⟩
  · unfold Wavefunction.psi
    have harg : (0.5 : ℂ) * Complex.I * (w.phase v : ℂ) =
        Complex.I * (w.phase v : ℂ) / 2 := by
      rw [show (0.5 : ℂ) = 1 / 2 by norm_num]
      ring
    rw [harg]
  · unfold Wavefunction.psi
    rw [map_mul, Complex.abs_ofReal]
    have harg : (0.5 : ℂ) * Complex.I * (w.phase v : ℂ) =
        ((0.5 * w.phase v : ℝ) : ℂ) * Complex.I := by
      norm_num
      ring
    rw [harg, Complex.abs_exp_ofReal_mul_I, mul_one]
    exact abs_of_nonneg (Real.sqrt_nonneg _)

/-- Witness for C6 at the concrete instance `wEx`, `v = [0]`. -/
theorem c6_witness :
    0 ≤ wEx.rbmAm.prob [0] ∧
    (wEx.amplitude [0] = Real.sqrt (wEx.rbmAm.prob [0]) ∧
     wEx.phase [0] = Real.log (wEx.rbmPh.prob [0]) ∧
     wEx.psi [0] = (wEx.amplitude [0] : ℂ) *
       Complex.exp (Complex.I * (wEx.phase [0] : ℂ) / 2) ∧
     Complex.abs (wEx.psi [0]) = wEx.amplitude [0]) :=
  ⟨by norm_num [wEx, rbmEx, Rbm.prob],
   c6_psi_modulus wEx [0] (by norm_num [wEx, rbmEx, Rbm.prob])⟩

/-- C7: under the equal-parameter-count precondition, `SetParameters`
assigns the first `npar/2` entries to the amplitude model and the entries
from `npar/2` on to the phase model, and
`SetParameters(GetParameters())` leaves `amplitude`, `phase` and `Grad`
unchanged at every fixed `v`. -/
theorem c7_setParameters_split_roundtrip (w : Wavefunction) (pars : List ℝ)
    (v : List ℕ) (h : w.rbmAm.Npar = w.rbmPh.Npar)
    (hlen : pars.length = w.npar) :
    (w.SetParameters pars).rbmAm.pars = pars.take (w.npar / 2) ∧
    (w.SetParameters pars).rbmPh.pars = pars.drop (w.npar / 2) ∧
    (w.SetParameters w.GetParameters).amplitude v = w.amplitude v ∧
    (w.SetParameters w.GetParameters).phase v = w.phase v ∧
    (w.SetParameters w.GetParameters).Grad v = w.Grad v := by
  have hnpar : w.npar / 2 + w.npar / 2 = w.npar := by
    unfold Wavefunction.npar at *
    omega
  refine ⟨?_, ?_, ?_, ?_, ?_⟩
  · show (List.range (w.npar / 2)).map (fun i => pars.getD i 0) = _
    have hcong : ∀ i ∈ List.range (w.npar / 2),
        pars.getD i 0 = (pars.take (w.npar / 2)).getD i 0 := by
      intro i hi
      exact (getD_take _ _ _ _ (List.mem_range.mp hi)).symm
    rw [List.map_congr_left hcong]
    have hl : (pars.take (w.npar / 2)).length = w.npar / 2 := by
      simp only [List.length_take, hlen]
      omega
    exact map_range_getD' _ 0 _ hl
  · show (List.range (w.npar / 2)).map (fun i => pars.getD (i + w.npar / 2) 0) = _
    have hcong : ∀ i ∈ List.range (w.npar / 2),
        pars.getD (i + w.npar / 2) 0 = (pars.drop (w.npar / 2)).getD i 0 := by
      intro i _
      rw [getD_drop, Nat.add_comm]
    rw [List.map_congr_left hcong]
    have hl : (pars.drop (w.npar / 2)).length = w.npar / 2 := by
      simp only [List.length_drop, hlen]
      unfold Wavefunction.npar at *
      omega
    exact map_range_getD' _ 0 _ hl
  · rw [set_get_eq w h]
  · rw [set_get_eq w h]
  · rw [set_get_eq w h]

/-- Witness for C7 at the concrete instance `wEx`, `pars = [1,2]`, `v = [0]`. -/
theorem c7_witness :
    wEx.rbmAm.Npar = wEx.rbmPh.Npar ∧ ([1, 2] : List ℝ).length = wEx.npar ∧
    ((wEx.SetParameters [1, 2]).rbmAm.pars = ([1, 2] : List ℝ).take (wEx.npar / 2) ∧
     (wEx.SetParameters [1, 2]).rbmPh.pars = ([1, 2] : List ℝ).drop (wEx.npar / 2) ∧
     (wEx.SetParameters wEx.GetParameters).amplitude [0] = wEx.amplitude [0] ∧
     (wEx.SetParameters wEx.GetParameters).phase [0] = wEx.phase [0] ∧
     (wEx.SetParameters wEx.GetParameters).Grad [0] = wEx.Grad [0]) :=
  ⟨rfl, rfl, c7_setParameters_split_roundtrip wEx [1, 2] [0] rfl rfl⟩

/-- C9: `ln1pexp` returns `x` unchanged when `x > 30` and
`log1p(exp(x))` otherwise, `ln1pexp(31) = 31` exactly, and the vector
overload applies the same rule entrywise. -/
theorem c9_ln1pexp_softplus (x y : ℝ) (xs : List ℝ)
    (hx : x > 30) (hy : y ≤ 30) :
    ln1pexp x = x ∧ ln1pexp y = Real.log (1 + Real.exp y) ∧
    ln1pexp 31 = 31 ∧ ln1pexpVec xs = xs.map ln1pexp := by
  refine ⟨?_, ?_, ?_, ?_⟩
  · simp [ln1pexp, hx]
  · simp [ln1pexp, not_lt.mpr hy]
  · norm_num [ln1pexp]
  · induction xs with
    | nil => rfl
    | cons a l ih => simp [ln1pexpVec, ih]

/-- Witness for C9 at `x = 31`, `y = 0`, `xs = [31, 0]`. -/
theorem c9_witness :
    (31 : ℝ) > 30 ∧ (0 : ℝ) ≤ 30 ∧
    (ln1pexp 31 = 31 ∧ ln1pexp 0 = Real.log (1 + Real.exp 0) ∧
     ln1pexp 31 = 31 ∧ ln1pexpVec [31, 0] = ([31, 0] : List ℝ).map ln1pexp) :=
  ⟨by norm_num, by norm_num,
   c9_ln1pexp_softplus 31 0 [31, 0] (by norm_num) (by norm_num)⟩

lemma headD_eq_getD_zero (p : List ℝ) : p.headD 0 = p.getD 0 0 := by
  cases p <;> rfl

lemma getD_tail (p : List ℝ) (i : ℕ) : p.tail.getD i 0 = p.getD (i + 1) 0 := by
  cases p <;> simp

lemma getD_tail_mat (p : List (List ℝ)) (i : ℕ) :
    p.tail.getD i [] = p.getD (i + 1) [] := by
  cases p <;> simp

lemma sampleRow_spec (row : List ℝ) : ∀ (p : List ℝ) (r : Rng),
    sampleRow row p r =
      (row.mapIdx (fun i _ =>
        if r.stream (r.pos + i) < p.getD i 0 then (1 : ℝ) else 0),
       ⟨r.stream, r.pos + row.length⟩) := by
  induction row with
  | nil =>
    intro p r
    simp [sampleRow]
  | cons a l ih =>
    intro p r
    rw [sampleRow, ih p.tail, List.mapIdx_cons]
    have hhead : (if r.stream r.pos < p.headD 0 then (1 : ℝ) else 0) =
        (if r.stream (r.pos + 0) < p.getD 0 0 then (1 : ℝ) else 0) := by
      rw [headD_eq_getD_zero, Nat.add_zero]
    have hfun : (fun i (x : ℝ) =>
        if r.stream (r.pos + 1 + i) < p.tail.getD i 0 then (1 : ℝ) else 0) =
        (fun i (x : ℝ) =>
          if r.stream (r.pos + (i + 1)) < p.getD (i + 1) 0 then (1 : ℝ) else 0) := by
      funext i x
      rw [getD_tail, show r.pos + 1 + i = r.pos + (i + 1) from by omega]
    simp only [hhead, hfun, List.length_cons]
    refine congrArg _ ?_
    congr 1
    omega

lemma sampleLayer_spec (rows : List (List ℝ)) (c : ℕ) :
    ∀ (probs : List (List ℝ)) (r : Rng),
    (∀ row ∈ rows, row.length = c) →
    sampleLayer rows probs r =
      (rows.mapIdx (fun s row => row.mapIdx (fun i _ =>
        if r.stream (r.pos + (s * c + i)) < (probs.getD s []).getD i 0
        then (1 : ℝ) else 0)),
       ⟨r.stream, r.pos + rows.length * c⟩) := by
  induction rows with
  | nil =>
    intro probs r _
    simp [sampleLayer]
  | cons row rows ih =>
    intro probs r hc
    have hrow : row.length = c := hc row (by simp)
    rw [show sampleLayer (row :: rows) probs r =
        (let q := sampleRow row (probs.headD []) r
         let q2 := sampleLayer rows probs.tail q.2
         (q.1 :: q2.1, q2.2)) from rfl]
    rw [sampleRow_spec, hrow]
    simp only []
    rw [ih probs.tail ⟨r.stream, r.pos + c⟩ fun x hx => hc x (by simp [hx]),
      List.mapIdx_cons]
    refine congrArg₂ Prod.mk (congrArg₂ List.cons ?_ ?_) ?_
    · have hh : probs.headD [] = probs.getD 0 [] := by cases probs <;> rfl
      simp only [hh, Nat.zero_mul, Nat.zero_add]
    · refine congrArg (fun f => List.mapIdx f rows) ?_
      funext s row'
      refine congrArg (fun f => List.mapIdx f row') ?_
      funext i x
      rw [getD_tail_mat,
        show r.pos + c + (s * c + i) = r.pos + ((s + 1) * c + i) from by ring]
    · show Rng.mk r.stream (r.pos + c + rows.length * c) = _
      rw [List.length_cons,
        show r.pos + c + rows.length * c = r.pos + (rows.length + 1) * c from by
          ring]

lemma sampleRow_binary (row : List ℝ) : ∀ (p : List ℝ) (r : Rng),
    ∀ x ∈ (sampleRow row p r).1, x = 0 ∨ x = 1 := by
  induction row with
  | nil =>
    intro p r x hx
    simp [sampleRow] at hx
  | cons a l ih =>
    intro p r x hx
    simp only [sampleRow] at hx
    rcases List.mem_cons.mp hx with h | h
    · by_cases hlt : r.stream r.pos < p.headD 0
      · rw [if_pos hlt] at h
        right; exact h
      · rw [if_neg hlt] at h
        left; exact h
    · exact ih p.tail _ x h

lemma sampleLayer_binary (rows : List (List ℝ)) : ∀ (probs : List (List ℝ))
    (r : Rng), ∀ row ∈ (sampleLayer rows probs r).1, ∀ x ∈ row,
    x = 0 ∨ x = 1 := by
  induction rows with
  | nil =>
    intro probs r row hrow
    simp [sampleLayer] at hrow
  | cons rw0 rows ih =>
    intro probs r row hrow
    simp only [sampleLayer] at hrow
    rcases List.mem_cons.mp hrow with h | h
    · intro x hx
      exact sampleRow_binary rw0 (probs.headD []) r x (h ▸ hx)
    · exact ih probs.tail _ row h

/-- C8: `SampleLayer` writes into every position a Bernoulli outcome —
exactly `1` when the fresh uniform draw for that entry (taken from the
shared generator in row-major call order) is below the matching
probability entry, else exactly `0`; every written entry is `0` or `1`,
and the output is a function of the generator state (seed) and the call
order alone. -/
theorem c8_sampleLayer_bernoulli (hv probs : List (List ℝ)) (r : Rng) (c : ℕ)
    (hc : ∀ row ∈ hv, row.length = c)
    (hlen : probs.length = hv.length)
    (hpc : ∀ row ∈ probs, row.length = c)
    (hp01 : ∀ row ∈ probs, ∀ x ∈ row, 0 ≤ x ∧ x ≤ 1) :
    (sampleLayer hv probs r).1 = hv.mapIdx (fun s row => row.mapIdx (fun i _ =>
      if r.stream (r.pos + (s * c + i)) < (probs.getD s []).getD i 0
      then (1 : ℝ) else 0)) ∧
    (∀ row ∈ (sampleLayer hv probs r).1, ∀ x ∈ row, x = 0 ∨ x = 1) ∧
    (sampleLayer hv probs r).2 = ⟨r.stream, r.pos + hv.length * c⟩ := by
  have hs := sampleLayer_spec hv c probs r hc
  exact ⟨by rw [hs], sampleLayer_binary hv probs r, by rw [hs]⟩

/-- A concrete generator used to witness C8: the constant stream `1/2`. -/
noncomputable def rngEx : Rng := ⟨fun _ => 1 / 2, 0⟩

/-- Witness for C8 at `hv = [[5,7]]`, `probs = [[1,0]]`, the generator
`rngEx`: the first entry becomes `1` (draw `1/2 < 1`), the second `0`. -/
theorem c8_witness :
    (∀ row ∈ [[(5 : ℝ), 7]], row.length = 2) ∧
    ([[(1 : ℝ), 0]].length = [[(5 : ℝ), 7]].length) ∧
    (∀ row ∈ [[(1 : ℝ), 0]], row.length = 2) ∧
    (∀ row ∈ [[(1 : ℝ), 0]], ∀ x ∈ row, 0 ≤ x ∧ x ≤ 1) ∧
    ((sampleLayer [[(5 : ℝ), 7]] [[(1 : ℝ), 0]] rngEx).1 =
      [[(5 : ℝ), 7]].mapIdx (fun s row => row.mapIdx (fun i _ =>
        if rngEx.stream (rngEx.pos + (s * 2 + i)) <
            ([[(1 : ℝ), 0]].getD s []).getD i 0
        then (1 : ℝ) else 0)) ∧
     (∀ row ∈ (sampleLayer [[(5 : ℝ), 7]] [[(1 : ℝ), 0]] rngEx).1,
        ∀ x ∈ row, x = 0 ∨ x = 1) ∧
     (sampleLayer [[(5 : ℝ), 7]] [[(1 : ℝ), 0]] rngEx).2 =
       ⟨rngEx.stream, rngEx.pos + [[(5 : ℝ), 7]].length * 2⟩) := by
  refine ⟨by simp, by simp, by simp, ?_, ?_⟩
  · intro row hrow x hx
    simp only [List.mem_singleton] at hrow
    subst hrow
    rcases List.mem_cons.mp hx with h | h
    · subst h; norm_num
    · simp only [List.mem_singleton] at h
      subst h; norm_num
  · refine c8_sampleLayer_bernoulli [[(5 : ℝ), 7]] [[(1 : ℝ), 0]] rngEx 2
      (by simp) (by simp) (by simp) ?_
    intro row hrow x hx
    simp only [List.mem_singleton] at hrow
    subst hrow
    rcases List.mem_cons.mp hx with h | h
    · subst h; norm_num
    · simp only [List.mem_singleton] at h
      subst h; norm_num

/-- C10: `InitRandomPars(seed, sigma)` forwards the identical
`(seed, sigma)` pair to both models, so two structurally identical models
(same initialization function) receive identical initial parameter
vectors. -/
theorem c10_initRandomPars_forwards (w : Wavefunction) (seed : Int)
    (sigma : ℝ) (h : w.rbmAm.initRandomParsF = w.rbmPh.initRandomParsF) :
    (w.InitRandomPars seed sigma).rbmAm.pars =
      w.rbmAm.initRandomParsF seed sigma ∧
    (w.InitRandomPars seed sigma).rbmPh.pars =
      w.rbmPh.initRandomParsF seed sigma ∧
    (w.InitRandomPars seed sigma).rbmAm.pars =
      (w.InitRandomPars seed sigma).rbmPh.pars := by
  refine ⟨rfl, rfl, ?_⟩
  simp [Wavefunction.InitRandomPars, Rbm.InitRandomPars, h]

/-- Witness for C10 at the concrete instance `wEx`, `seed = 3`, `sigma = 2`. -/
theorem c10_witness :
    wEx.rbmAm.initRandomParsF = wEx.rbmPh.initRandomParsF ∧
    ((wEx.InitRandomPars 3 2).rbmAm.pars = wEx.rbmAm.initRandomParsF 3 2 ∧
     (wEx.InitRandomPars 3 2).rbmPh.pars = wEx.rbmPh.initRandomParsF 3 2 ∧
     (wEx.InitRandomPars 3 2).rbmAm.pars = (wEx.InitRandomPars 3 2).rbmPh.pars) :=
  ⟨rfl, c10_initRandomPars_forwards wEx 3 2 rfl⟩

end qst
